import Mathlib

/-!
Shallow embedding of the core RAG pipeline of the repository
(`scripts/ingest.py`, `scripts/embed.py`, `scripts/retrieve.py`).

Modelling decisions, stated once here:

* The HuggingFace tokenizer (`tokenizer.encode` / `tokenizer.decode`) and
  the sentence-transformer embedder are external capabilities, so they are
  abstracted as parameters: a `Tokenizer` structure with `encode` and
  `decode` fields, and an embedding function from text to a vector.
* Machine floats are modelled exactly: the algorithms only compare and add
  products of differences, so the definitions are parametric in a linearly
  ordered commutative ring `K` (instantiable at `ℚ`); concrete witnesses
  instantiate `K` at `Int`, whose arithmetic the kernel evaluates.
* Python `range(start, stop, step)` and list slicing / indexing are
  embedded with their exact Python semantics for the argument domains the
  scripts reach (`rangeStep` for positive steps, the explicit branches of
  `chunk_text` for zero and negative steps, `pySlice`, `pyGet` with
  negative-index wrap-around and `IndexError`).
* The faiss `IndexFlatL2` is modelled as the list of its vectors; its
  `search` is modelled from the faiss contract: positions of the vectors in
  ascending order of squared Euclidean distance to the query, truncated to
  `k`, padded with label `-1` when the index holds fewer than `k` vectors.
* File IO is modelled by passing the loaded values: `retrieve` takes the
  loaded index and metadata (the script's `load_artifacts` performs no
  validation whatsoever, so nothing is lost by this), and `load_documents`
  takes the directory listing as a list of `RawFile` records.
-/

namespace RagPipeline

/-- Abstract tokenizer capability: `encode` maps text to a token sequence,
`decode` maps a token sequence back to text.  In the scripts this is the
pretrained `bert-base-uncased` tokenizer, an external collaborator. -/
structure Tokenizer where
  encode : String → List Nat
  decode : List Nat → String

/-- Fuel-driven ascending range: `rangeStepAux step fuel start stop` emits
`start, start+step, ...` while the current value is `< stop`, consuming one
unit of fuel per element. -/
def rangeStepAux (step : Nat) : Nat → Nat → Nat → List Nat
  | 0, _, _ => []
  | fuel + 1, start, stop =>
      if start < stop then start :: rangeStepAux step fuel (start + step) stop
      else []

/-- Python `range(start, stop, step)` for a positive `step` (the scripts
only reach this function with `step ≥ 1`): the fuel `stop - start` bounds
the number of emitted elements because each iteration advances by at least
one. -/
def rangeStep (start stop step : Nat) : List Nat :=
  rangeStepAux step (stop - start) start stop

/-- Clamped index used by Python slice semantics: a negative index counts
from the end of the list (floored at 0), a non-negative index is capped at
the length. -/
def pySliceIdx (len : Nat) (j : Int) : Nat :=
  if j < 0 then ((len : Int) + j).toNat else min j.toNat len

/-- Python slice `l[a:b]`: the elements with positions in
`[pySliceIdx len a, pySliceIdx len b)`. -/
def pySlice {α : Type} (l : List α) (a b : Int) : List α :=
  (l.take (pySliceIdx l.length b)).drop (pySliceIdx l.length a)

/-- The list of chunk texts produced by `chunk_text`'s loop for a positive
step: for each `i` of `range(0, len(tokens), step)`, the detokenized window
`tokens[i : i + max_tokens]`. -/
def chunkList (tok : Tokenizer) (text : String) (max_tokens overlap : Int) : List String :=
  (rangeStep 0 (tok.encode text).length (max_tokens - overlap).toNat).map
    (fun i : Nat => tok.decode (pySlice (tok.encode text) (i : Int) ((i : Int) + max_tokens)))

/-- Model of `scripts/ingest.py`, `chunk_text`: tokenizes the text, sets
`step = max_tokens - overlap`, and yields
`tokenizer.decode(tokens[i : i + max_tokens])` for
`i in range(0, len(tokens), step)`.  Python's `range` raises `ValueError`
when the step is zero, and produces no elements when the step is negative
(the start `0` is never above the stop `len(tokens)`). -/
def chunk_text (tok : Tokenizer) (text : String) (max_tokens overlap : Int) :
    Except String (List String) :=
  let step := max_tokens - overlap
  if step = 0 then .error "ValueError: range() arg 3 must not be zero"
  else if step < 0 then .ok []
  else .ok (chunkList tok text max_tokens overlap)

/-- A concrete tokenizer used for witnesses and counterexamples: one token
per character (token = code point), so that `encode` of the empty string is
empty and `decode` is a left inverse of `encode`. -/
def charTok : Tokenizer where
  encode s := s.toList.map (fun c => c.toNat)
  decode ts := String.mk (ts.map (fun n => Char.ofNat n))

/-- A persisted metadata record, `scripts/embed.py`: the dictionary
`{"id": idx, "content": chunk, "source": src}`. -/
structure Entry where
  id : Nat
  content : String
  source : String
deriving DecidableEq

/- The numeric type `K` of vector components: the scripts use float32,
which is abstracted as an arbitrary linearly ordered commutative ring with
decidable order (general theorems hold for `ℚ` or any such field; concrete
witnesses use `Int`, whose arithmetic the kernel evaluates). -/
variable {K : Type} [LinearOrderedCommRing K]

/-- Squared Euclidean distance between two vectors (the metric of
`faiss.IndexFlatL2`). -/
def sqDist (u v : List K) : K :=
  ((u.zip v).map (fun p => (p.1 - p.2) * (p.1 - p.2))).sum

/-- Comparison of scored candidates by distance (first component). -/
def distLe (a b : K × Int) : Prop := a.1 ≤ b.1

instance : DecidableRel (@distLe K _) :=
  fun a b => inferInstanceAs (Decidable (a.1 ≤ b.1))

instance : IsTotal (K × Int) distLe := ⟨fun a b => le_total a.1 b.1⟩

instance : IsTrans (K × Int) distLe := ⟨fun _ _ _ h1 h2 => le_trans h1 h2⟩

/-- Every index position paired with its squared distance to the query. -/
def scoredVectors (db : List (List K)) (q : List K) : List (K × Int) :=
  (List.range db.length).map (fun i => (sqDist q (db.getD i []), (i : Int)))

/-- Model of `faiss.IndexFlatL2.search` restricted to the labels (the
script discards the distances): the positions of the stored vectors in
ascending order of squared Euclidean distance to the query, truncated to
`k`; when the index holds fewer than `k` vectors, faiss pads the missing
slots with the label `-1`. -/
def faissSearchLabels (db : List (List K)) (q : List K) (k : Nat) : List Int :=
  let top := ((List.insertionSort distLe (scoredVectors db q)).take k).map Prod.snd
  top ++ List.replicate (k - top.length) (-1)

/-- Python list subscript `l[i]`: a negative index counts from the end;
an index out of range raises `IndexError`. -/
def pyGet {α : Type} (l : List α) (i : Int) : Except String α :=
  let j : Int := if i < 0 then (l.length : Int) + i else i
  if h : 0 ≤ j ∧ j.toNat < l.length then .ok (l.get ⟨j.toNat, h.2⟩)
  else .error "IndexError: list index out of range"

/-- The effect of a Python list comprehension whose body may raise: apply
`f` to each element in order, propagating the first raised exception. -/
def exceptMap {α β : Type} (f : α → Except String β) : List α → Except String (List β)
  | [] => .ok []
  | a :: as => do
      let b ← f a
      let bs ← exceptMap f as
      pure (b :: bs)

/-- Model of `scripts/retrieve.py`, `retrieve`: embeds the query, searches the index
for the `k` nearest labels, and builds `[metadata[i] for i in idx[0]]`.
The loaded artifacts are passed in as values (`load_artifacts` performs no
validation of any kind, so loading is transparent); the query embedder is
the abstract external capability `emb`. -/
def retrieve (emb : String → List K) (index : List (List K)) (metadata : List Entry)
    (query : String) (k : Nat) : Except String (List Entry) :=
  let q_emb := emb query
  let labels := faissSearchLabels index q_emb k
  exceptMap (pyGet metadata) labels

/-- The squared distances between the query and the stored vectors at the
given (Python-interpreted) label positions; used to state the ranking
contract of `retrieve`. -/
def labelDists (db : List (List K)) (q : List K) (ls : List Int) : Except String (List K) :=
  exceptMap (fun l => (pyGet db l).map (sqDist q)) ls

/-- Model of `scripts/embed.py`, `build_index`, minus file output: embeds every chunk
(one vector per chunk, in order — the contract of
`SentenceTransformer.encode`), adds all vectors to a fresh flat index, and
builds the metadata list from `enumerate(zip(chunks, sources))`.  With
zero chunks the embedding matrix is empty and `embeddings.shape[1]` raises
`IndexError` (a 1-axis array has no second axis), before any artifact is
produced. -/
def build_index {V : Type} (emb : String → V) (chunks sources : List String) :
    Except String (List V × List Entry) :=
  match chunks with
  | [] => .error "IndexError: tuple index out of range"
  | _ :: _ =>
      let embeddings := chunks.map emb
      let metadata := (chunks.zip sources).enum.map
        (fun p => { id := p.1, content := p.2.1, source := p.2.2 : Entry })
      .ok (embeddings, metadata)

/-- Model of `scripts/ingest.py`, `ingest`: for each `(doc, src)` pair of the loaded
corpus, appends every chunk of `chunk_text(doc)` (the script's default
configuration `max_tokens = 400`, `overlap = 50`, a positive step, so the
generator never raises) to `chunks` and `src` to `chunk_sources`, in
lockstep. -/
def ingest (tok : Tokenizer) (docs sources : List String) :
    List String × List String :=
  ((docs.zip sources).flatMap (fun p => chunkList tok p.1 400 50),
   (docs.zip sources).flatMap (fun p => (chunkList tok p.1 400 50).map (fun _ => p.2)))

/-- A directory entry as seen by `load_documents`: its base name, whether
it is a regular file, whether its bytes are valid UTF-8, and the result of
decoding it as UTF-8 with undecodable bytes dropped (Python's
`errors="ignore"`), which is total. -/
structure RawFile where
  name : String
  isFile : Bool
  utf8Valid : Bool
  textIgnore : String
deriving DecidableEq

/-- Python `str.endswith(suffix)`, modelled on the character list. -/
def strEndsWith (s suf : String) : Bool :=
  suf.toList.isSuffixOf s.toList

/-- Model of `scripts/ingest.py`, `load_documents`: iterates over the directory
listing, keeps regular files whose name ends in `.txt`, opens each with
`encoding="utf-8", errors="ignore"` — decoding therefore never fails and
always yields `textIgnore` — and appends the content and the file name in
lockstep.  The third component is the list of emitted warnings: the
function body contains no warning or logging statement, so it is empty. -/
def load_documents (files : List RawFile) :
    List String × List String × List String :=
  let eligible := files.filter (fun f => f.isFile && strEndsWith f.name ".txt")
  (eligible.map (fun f => f.textIgnore), eligible.map (fun f => f.name), [])

/-- Concrete query embedder for witnesses: every query embeds to the
origin of a one-dimensional space. -/
def embZero : String → List Int := fun _ => [0]

/-- Concrete metadata records for the retrieval scenarios. -/
def entryA : Entry := ⟨0, "chunk zero", "a.txt"⟩

def entryB : Entry := ⟨1, "chunk one", "a.txt"⟩

def entryC : Entry := ⟨2, "chunk two", "b.txt"⟩

/- ### Facts about `rangeStep` -/

theorem rangeStepAux_eq_nil (step fuel start stop : Nat) (h : stop ≤ start) :
    rangeStepAux step fuel start stop = [] := by
  cases fuel with
  | zero => rfl
  | succ n => simp [rangeStepAux, Nat.not_lt.2 h]

theorem rangeStepAux_irrel (step : Nat) (hs : 0 < step) :
    ∀ fuel₁ fuel₂ start stop : Nat, stop - start ≤ fuel₁ → stop - start ≤ fuel₂ →
      rangeStepAux step fuel₁ start stop = rangeStepAux step fuel₂ start stop := by
  intro fuel₁
  induction fuel₁ with
  | zero =>
      intro fuel₂ start stop h1 _
      have h : stop ≤ start := by omega
      rw [rangeStepAux_eq_nil _ _ _ _ h, rangeStepAux_eq_nil _ _ _ _ h]
  | succ n ih =>
      intro fuel₂ start stop h1 h2
      cases fuel₂ with
      | zero =>
          have h : stop ≤ start := by omega
          rw [rangeStepAux_eq_nil _ _ _ _ h, rangeStepAux_eq_nil _ _ _ _ h]
      | succ m =>
          by_cases hlt : start < stop
          · simp only [rangeStepAux, if_pos hlt]
            exact congrArg _ (ih m (start + step) stop (by omega) (by omega))
          · simp only [rangeStepAux, if_neg hlt]

/-- One-step unfolding of `rangeStep` for a positive step. -/
theorem rangeStep_eq (start stop step : Nat) (hs : 0 < step) :
    rangeStep start stop step =
      if start < stop then start :: rangeStep (start + step) stop step else [] := by
  unfold rangeStep
  by_cases h : start < stop
  · rw [if_pos h]
    have h1 : stop - start = (stop - start - 1) + 1 := by omega
    rw [h1]
    simp only [rangeStepAux, if_pos h]
    exact congrArg _ (rangeStepAux_irrel step hs _ _ _ _ (by omega) (le_refl _))
  · rw [if_neg h]
    exact rangeStepAux_eq_nil _ _ _ _ (by omega)

/-- Elements of `rangeStep` are exactly the start plus multiples of the
step that lie below the stop. -/
theorem mem_rangeStep_aux (step : Nat) (hs : 0 < step) :
    ∀ d start stop i : Nat, stop - start ≤ d →
      (i ∈ rangeStep start stop step ↔ (∃ m, i = start + m * step) ∧ i < stop) := by
  intro d
  induction d with
  | zero =>
      intro start stop i h
      rw [rangeStep_eq _ _ _ hs, if_neg (by omega)]
      constructor
      · intro h'
        exact absurd h' (List.not_mem_nil i)
      · rintro ⟨⟨m, rfl⟩, hlt⟩
        have := Nat.le_add_right start (m * step)
        omega
  | succ n ih =>
      intro start stop i h
      by_cases hlt : start < stop
      · rw [rangeStep_eq _ _ _ hs, if_pos hlt, List.mem_cons,
          ih (start + step) stop i (by omega)]
        constructor
        · rintro (rfl | ⟨⟨m, rfl⟩, hi⟩)
          · exact ⟨⟨0, by omega⟩, hlt⟩
          · refine ⟨⟨m + 1, ?_⟩, hi⟩
            rw [Nat.succ_mul]
            omega
        · rintro ⟨⟨m, rfl⟩, hi⟩
          cases m with
          | zero => left; omega
          | succ m' =>
              right
              refine ⟨⟨m', ?_⟩, hi⟩
              rw [Nat.succ_mul] at *
              omega
      · rw [rangeStep_eq _ _ _ hs, if_neg hlt]
        constructor
        · intro h'
          exact absurd h' (List.not_mem_nil i)
        · rintro ⟨⟨m, rfl⟩, hi⟩
          have := Nat.le_add_right start (m * step)
          omega

theorem mem_rangeStep (start stop step i : Nat) (hs : 0 < step) :
    i ∈ rangeStep start stop step ↔ (∃ m, i = start + m * step) ∧ i < stop :=
  mem_rangeStep_aux step hs (stop - start) start stop i (le_refl _)

/-- Every position `j` in `[start, stop)` is covered by a window start
emitted by `rangeStep`: some emitted `i` satisfies `i ≤ j < i + step`. -/
theorem rangeStep_cover_aux (step : Nat) (hs : 0 < step) :
    ∀ d start j stop : Nat, j - start ≤ d → start ≤ j → j < stop →
      ∃ i, i ∈ rangeStep start stop step ∧ i ≤ j ∧ j < i + step := by
  intro d
  induction d with
  | zero =>
      intro start j stop h hle hlt
      rw [rangeStep_eq _ _ _ hs, if_pos (by omega)]
      exact ⟨start, List.mem_cons_self _ _, by omega, by omega⟩
  | succ n ih =>
      intro start j stop h hle hlt
      by_cases hj : j < start + step
      · rw [rangeStep_eq _ _ _ hs, if_pos (by omega)]
        exact ⟨start, List.mem_cons_self _ _, hle, hj⟩
      · obtain ⟨i, hi, h1, h2⟩ := ih (start + step) j stop (by omega) (by omega) hlt
        rw [rangeStep_eq _ _ _ hs, if_pos (by omega)]
        exact ⟨i, List.mem_cons_of_mem _ hi, h1, h2⟩

theorem rangeStep_cover (start j stop step : Nat) (hs : 0 < step)
    (hle : start ≤ j) (hlt : j < stop) :
    ∃ i, i ∈ rangeStep start stop step ∧ i ≤ j ∧ j < i + step :=
  rangeStep_cover_aux step hs (j - start) start j stop (le_refl _) hle hlt

/- ### Facts about `pySlice` -/

/-- A list element whose position `j` lies inside the window
`[i, i + mt)` is an element of the slice `l[i : i + mt]`. -/
theorem mem_pySlice_of_window {α : Type} (l : List α) (i j : Nat) (mt : Int)
    (hij : i ≤ j) (hjw : j < i + mt.toNat) (hj : j < l.length) :
    l.get ⟨j, hj⟩ ∈ pySlice l (i : Int) ((i : Int) + mt) := by
  have hA : pySliceIdx l.length (i : Int) = i := by
    unfold pySliceIdx
    split <;> omega
  have hB : pySliceIdx l.length ((i : Int) + mt) = min (i + mt.toNat) l.length := by
    unfold pySliceIdx
    split <;> omega
  have hlen1 : (l.take (min (i + mt.toNat) l.length)).length = min (i + mt.toNat) l.length := by
    rw [List.length_take]
    omega
  have hlen2 : j - i < ((l.take (min (i + mt.toNat) l.length)).drop i).length := by
    rw [List.length_drop, hlen1]
    omega
  have key : ((l.take (min (i + mt.toNat) l.length)).drop i).get ⟨j - i, hlen2⟩ =
      l.get ⟨j, hj⟩ := by
    simp only [List.get_eq_getElem, List.getElem_drop, List.getElem_take]
    congr 1
    omega
  rw [pySlice, hA, hB, ← key]
  exact List.get_mem _ _ _

/-- For a window starting at `0` whose extent `mt` covers the whole list,
the slice `l[0 : mt]` is the whole list. -/
theorem pySlice_zero_full {α : Type} (l : List α) (mt : Int)
    (hl : (l.length : Int) ≤ mt) :
    pySlice l ((0 : Nat) : Int) (((0 : Nat) : Int) + mt) = l := by
  have hA : pySliceIdx l.length (((0 : Nat) : Int)) = 0 := by
    unfold pySliceIdx
    split <;> omega
  have hB : pySliceIdx l.length (((0 : Nat) : Int) + mt) = l.length := by
    unfold pySliceIdx
    split <;> omega
  rw [pySlice, hA, hB, List.take_length, List.drop_zero]

/- ### C5: the chunker emits the stepped windows and covers every token -/

/-- C5: for every text and every valid configuration
(`max_tokens > 0`, `0 ≤ overlap < max_tokens`), `chunk_text` succeeds and
emits exactly the detokenized windows `tokens[i : i + max_tokens]` for the
`i` of `range(0, N, step)` — i.e. the multiples of `step` below `N` — and
every token position `j < N` lies in one of the emitted windows (the token
itself is a member of that window's slice): no token is dropped and there
is no gap. -/
theorem chunk_text_windows_cover (tok : Tokenizer) (text : String)
    (max_tokens overlap : Int)
    (hmt : 0 < max_tokens) (hov : 0 ≤ overlap) (hlt : overlap < max_tokens) :
    chunk_text tok text max_tokens overlap =
      .ok ((rangeStep 0 (tok.encode text).length (max_tokens - overlap).toNat).map
        (fun i : Nat =>
          tok.decode (pySlice (tok.encode text) (i : Int) ((i : Int) + max_tokens)))) ∧
    (∀ i : Nat,
      i ∈ rangeStep 0 (tok.encode text).length (max_tokens - overlap).toNat ↔
        (∃ m, i = m * (max_tokens - overlap).toNat) ∧
          i < (tok.encode text).length) ∧
    (∀ j : Nat, ∀ hj : j < (tok.encode text).length,
      ∃ i ∈ rangeStep 0 (tok.encode text).length (max_tokens - overlap).toNat,
        i ≤ j ∧ j < i + max_tokens.toNat ∧
        (tok.encode text).get ⟨j, hj⟩ ∈
          pySlice (tok.encode text) (i : Int) ((i : Int) + max_tokens)) := by
  have hs : 0 < (max_tokens - overlap).toNat := by omega
  refine ⟨?_, ?_, ?_⟩
  · simp only [chunk_text, chunkList]
    rw [if_neg (by omega), if_neg (by omega)]
  · intro i
    rw [mem_rangeStep _ _ _ _ hs]
    constructor
    · rintro ⟨⟨m, rfl⟩, h⟩
      exact ⟨⟨m, by omega⟩, h⟩
    · rintro ⟨⟨m, rfl⟩, h⟩
      exact ⟨⟨m, by omega⟩, h⟩
  · intro j hj
    obtain ⟨i, hi, h1, h2⟩ :=
      rangeStep_cover 0 j (tok.encode text).length (max_tokens - overlap).toNat hs
        (Nat.zero_le _) hj
    refine ⟨i, hi, h1, by omega, ?_⟩
    exact mem_pySlice_of_window _ i j max_tokens h1 (by omega) hj

/-- C5 witness: the configuration `max_tokens = 2`, `overlap = 1` on the
four-character text is valid and the theorem applies. -/
theorem chunk_text_windows_cover_witness :
    ((0 : Int) < 2 ∧ (0 : Int) ≤ 1 ∧ (1 : Int) < 2) ∧
    (chunk_text charTok "ab" 2 1 =
      .ok ((rangeStep 0 (charTok.encode "ab").length ((2 : Int) - 1).toNat).map
        (fun i : Nat =>
          charTok.decode (pySlice (charTok.encode "ab") (i : Int) ((i : Int) + 2)))) ∧
    (∀ i : Nat,
      i ∈ rangeStep 0 (charTok.encode "ab").length ((2 : Int) - 1).toNat ↔
        (∃ m, i = m * ((2 : Int) - 1).toNat) ∧
          i < (charTok.encode "ab").length) ∧
    (∀ j : Nat, ∀ hj : j < (charTok.encode "ab").length,
      ∃ i ∈ rangeStep 0 (charTok.encode "ab").length ((2 : Int) - 1).toNat,
        i ≤ j ∧ j < i + (2 : Int).toNat ∧
        (charTok.encode "ab").get ⟨j, hj⟩ ∈
          pySlice (charTok.encode "ab") (i : Int) ((i : Int) + 2))) :=
  ⟨⟨by norm_num, by norm_num, by norm_num⟩,
    chunk_text_windows_cover charTok "ab" 2 1 (by norm_num) (by norm_num) (by norm_num)⟩

/- ### C6: single-chunk case -/

/-- C6 counterexample: with the valid configuration `max_tokens = 4`,
`overlap = 3`, the three-token text `"abc"` has `N = 3 ≤ max_tokens` yet
`chunk_text` yields three chunks, not one; and the empty text has
`N = 0 ≤ max_tokens` yet yields zero chunks, not one. -/
theorem chunk_text_single_cex :
    (charTok.encode "abc").length = 3 ∧
    chunk_text charTok "abc" 4 3 = .ok ["abc", "bc", "c"] ∧
    (charTok.encode "").length = 0 ∧
    chunk_text charTok "" 4 0 = .ok [] :=
  ⟨rfl, rfl, rfl, rfl⟩

/-- C6 (amended): for every text whose token sequence is nonempty and has
length at most `step = max_tokens - overlap`, `chunk_text` (with a valid
configuration) yields exactly one chunk, the detokenization of the whole
token sequence. -/
theorem chunk_text_single (tok : Tokenizer) (text : String)
    (max_tokens overlap : Int)
    (hov : 0 ≤ overlap) (hlt : overlap < max_tokens)
    (hne : (tok.encode text).length ≠ 0)
    (hle : ((tok.encode text).length : Int) ≤ max_tokens - overlap) :
    chunk_text tok text max_tokens overlap = .ok [tok.decode (tok.encode text)] := by
  have hs : 0 < (max_tokens - overlap).toNat := by omega
  have h1 : rangeStep 0 (tok.encode text).length (max_tokens - overlap).toNat = [0] := by
    rw [rangeStep_eq _ _ _ hs, if_pos (by omega), rangeStep_eq _ _ _ hs,
      if_neg (by omega)]
  simp only [chunk_text, chunkList]
  rw [if_neg (by omega), if_neg (by omega), h1, List.map_cons, List.map_nil,
    pySlice_zero_full _ _ (by omega)]

/-- C6 witness: the two-token text `"ab"` with the default configuration
`max_tokens = 400`, `overlap = 50` yields the single whole chunk. -/
theorem chunk_text_single_witness :
    ((0 : Int) ≤ 50 ∧ (50 : Int) < 400 ∧ (charTok.encode "ab").length ≠ 0 ∧
      ((charTok.encode "ab").length : Int) ≤ 400 - 50) ∧
    chunk_text charTok "ab" 400 50 = .ok [charTok.decode (charTok.encode "ab")] :=
  ⟨⟨by norm_num, by norm_num, by decide, by decide⟩,
    chunk_text_single charTok "ab" 400 50 (by norm_num) (by norm_num)
      (by decide) (by decide)⟩

/- ### C7: empty input -/

/-- C7: when the tokenizer maps the empty string to the empty token
sequence (the spec's tokenizer abstraction) and the configuration is valid
(`overlap < max_tokens`), `chunk_text` applied to the empty string emits
zero chunks. -/
theorem chunk_text_empty_input (tok : Tokenizer) (max_tokens overlap : Int)
    (henc : tok.encode "" = []) (hlt : overlap < max_tokens) :
    chunk_text tok "" max_tokens overlap = .ok [] := by
  have hs : 0 < (max_tokens - overlap).toNat := by omega
  simp only [chunk_text, chunkList]
  rw [if_neg (by omega), if_neg (by omega), henc]
  simp only [List.length_nil]
  rw [rangeStep_eq _ _ _ hs, if_neg (by omega)]
  rfl

/-- C7 witness: the character tokenizer maps `""` to `[]`, and the default
configuration is valid. -/
theorem chunk_text_empty_input_witness :
    (charTok.encode "" = [] ∧ (50 : Int) < 400) ∧
    chunk_text charTok "" 400 50 = .ok [] :=
  ⟨⟨rfl, by norm_num⟩, chunk_text_empty_input charTok 400 50 rfl (by norm_num)⟩

/- ### C8: invalid configurations -/

/-- C8 counterexample: the configuration `overlap = 5 > 3 = max_tokens`
(so `overlap ≥ max_tokens`, which the claim says is rejected with a
failure) makes `chunk_text` return successfully with zero chunks on a
nonempty text — no failure occurs. -/
theorem chunk_text_no_reject_cex :
    chunk_text charTok "abc" 3 5 = .ok [] :=
  rfl

/-- C8 (amended): `chunk_text` performs no validation.  For
`overlap = max_tokens` (step zero) the call fails with Python's
`ValueError` from `range`; for `overlap > max_tokens` (negative step) the
call silently emits zero chunks for every input text. -/
theorem chunk_text_no_validation (tok : Tokenizer) (text : String)
    (max_tokens overlap : Int) (h : max_tokens ≤ overlap) :
    chunk_text tok text max_tokens overlap =
      if max_tokens = overlap then
        .error "ValueError: range() arg 3 must not be zero"
      else .ok [] := by
  simp only [chunk_text]
  by_cases he : max_tokens - overlap = 0
  · rw [if_pos he, if_pos (by omega)]
  · rw [if_neg he, if_pos (by omega), if_neg (by omega)]

/-- C8 witness: at `max_tokens = overlap = 3` the theorem yields the
`ValueError` outcome. -/
theorem chunk_text_no_validation_witness :
    ((3 : Int) ≤ 3) ∧
    chunk_text charTok "ab" 3 3 =
      (if (3 : Int) = 3 then
        .error "ValueError: range() arg 3 must not be zero"
      else .ok []) :=
  ⟨by norm_num, chunk_text_no_validation charTok "ab" 3 3 (by norm_num)⟩

/- ### Helper lemmas for the retrieval and indexing claims -/

theorem exceptMap_ok {α β : Type} (f : α → Except String β) (g : α → β) :
    ∀ l : List α, (∀ a ∈ l, f a = .ok (g a)) → exceptMap f l = .ok (l.map g) := by
  intro l
  induction l with
  | nil => intro _; rfl
  | cons a as ih =>
      intro h
      have ha := h a (List.mem_cons_self a as)
      have has := ih (fun x hx => h x (List.mem_cons_of_mem _ hx))
      simp only [exceptMap, ha, has, List.map_cons]
      rfl

theorem pyGet_ok {α : Type} (l : List α) (i : Int) (h0 : 0 ≤ i)
    (h1 : i.toNat < l.length) :
    pyGet l i = .ok (l.get ⟨i.toNat, h1⟩) := by
  simp only [pyGet]
  have hif : (if i < 0 then (l.length : Int) + i else i) = i := if_neg (by omega)
  simp only [hif]
  rw [dif_pos (⟨h0, h1⟩ : 0 ≤ i ∧ i.toNat < l.length)]

/-- Every entry of the sorted candidate list is a genuine index position
paired with its distance to the query. -/
theorem mem_sorted_scored (db : List (List K)) (q : List K) (p : K × Int)
    (hp : p ∈ List.insertionSort distLe (scoredVectors db q)) :
    0 ≤ p.2 ∧ p.2.toNat < db.length ∧ p.1 = sqDist q (db.getD p.2.toNat []) := by
  have hp' : p ∈ scoredVectors db q :=
    (List.perm_insertionSort distLe _).mem_iff.mp hp
  unfold scoredVectors at hp'
  obtain ⟨i, hi, rfl⟩ := List.mem_map.mp hp'
  have hi' := List.mem_range.mp hi
  exact ⟨Int.natCast_nonneg i, by simpa using hi', by simp⟩

theorem length_sorted_scored (db : List (List K)) (q : List K) :
    (List.insertionSort distLe (scoredVectors db q)).length = db.length := by
  rw [(List.perm_insertionSort distLe _).length_eq]
  unfold scoredVectors
  rw [List.length_map, List.length_range]

/-- When the index holds at least `k` vectors, no `-1` padding occurs: the
labels are exactly the top `k` sorted positions. -/
theorem faissSearchLabels_of_le (db : List (List K)) (q : List K) (k : Nat)
    (hk : k ≤ db.length) :
    faissSearchLabels db q k =
      ((List.insertionSort distLe (scoredVectors db q)).take k).map Prod.snd := by
  simp only [faissSearchLabels]
  have hlen :
      (((List.insertionSort distLe (scoredVectors db q)).take k).map Prod.snd).length
        = k := by
    rw [List.length_map, List.length_take, length_sorted_scored]
    omega
  rw [hlen, Nat.sub_self, List.replicate_zero, List.append_nil]

theorem ingest_lengths (tok : Tokenizer) (docs sources : List String) :
    (ingest tok docs sources).1.length = (ingest tok docs sources).2.length := by
  unfold ingest
  induction docs.zip sources with
  | nil => rfl
  | cons p l ih => simp [ih]

theorem build_index_ok {V : Type} (emb : String → V) (chunks sources : List String)
    (hne : chunks ≠ []) :
    build_index emb chunks sources =
      .ok (chunks.map emb,
        (chunks.zip sources).enum.map
          (fun p => { id := p.1, content := p.2.1, source := p.2.2 : Entry })) := by
  cases chunks with
  | nil => exact absurd rfl hne
  | cons c cs => rfl

/- ### C4: index/metadata positional coupling after `build_index` -/

/-- C4: whenever `build_index` completes on the output of `ingest`, the
metadata list is exactly as long as the vector list, and the `i`-th
metadata record has `id = i` and carries the text and the source of
exactly the `i`-th embedded chunk (whose vector is the `i`-th vector of
the index). -/
theorem build_index_invariant {V : Type} (tok : Tokenizer) (emb : String → V)
    (docs sources : List String) (vecs : List V) (md : List Entry)
    (hok : build_index emb (ingest tok docs sources).1 (ingest tok docs sources).2 =
      .ok (vecs, md)) :
    md.length = vecs.length ∧
    ∀ i : Nat, ∀ h : i < md.length,
      (md.get ⟨i, h⟩).id = i ∧
      (md.get ⟨i, h⟩).content = (ingest tok docs sources).1.getD i "" ∧
      (md.get ⟨i, h⟩).source = (ingest tok docs sources).2.getD i "" ∧
      vecs.getD i (emb "") = emb ((ingest tok docs sources).1.getD i "") := by
  have hlen := ingest_lengths tok docs sources
  by_cases hne : (ingest tok docs sources).1 = []
  · rw [hne] at hok
    exact absurd hok (by simp [build_index])
  · rw [build_index_ok emb _ _ hne] at hok
    obtain ⟨hv, hm⟩ : vecs = (ingest tok docs sources).1.map emb ∧
        md = ((ingest tok docs sources).1.zip (ingest tok docs sources).2).enum.map
          (fun p => { id := p.1, content := p.2.1, source := p.2.2 : Entry }) := by
      have := hok.symm
      simp only [Except.ok.injEq, Prod.mk.injEq] at this
      exact this
    subst hv hm
    have hmdlen :
        (((ingest tok docs sources).1.zip (ingest tok docs sources).2).enum.map
          (fun p => { id := p.1, content := p.2.1, source := p.2.2 : Entry })).length
          = (ingest tok docs sources).1.length := by
      rw [List.length_map, List.enum_length, List.length_zip]
      omega
    constructor
    · rw [hmdlen, List.length_map]
    · intro i h
      have hi : i < (ingest tok docs sources).1.length := by rwa [hmdlen] at h
      have hi2 : i < (ingest tok docs sources).2.length := by omega
      have hizip :
          i < ((ingest tok docs sources).1.zip (ingest tok docs sources).2).length := by
        rw [List.length_zip]
        omega
      have hienum :
          i < ((ingest tok docs sources).1.zip (ingest tok docs sources).2).enum.length := by
        rwa [List.enum_length]
      have hget :
          (((ingest tok docs sources).1.zip (ingest tok docs sources).2).enum.map
            (fun p => { id := p.1, content := p.2.1, source := p.2.2 : Entry })).get ⟨i, h⟩
          = { id := i,
              content := (ingest tok docs sources).1.getD i "",
              source := (ingest tok docs sources).2.getD i "" } := by
        rw [List.get_eq_getElem, List.getElem_map, List.getElem_enum, List.getElem_zip,
          List.getD_eq_getElem _ _ hi, List.getD_eq_getElem _ _ hi2]
      rw [hget]
      refine ⟨rfl, rfl, rfl, ?_⟩
      rw [List.getD_eq_getElem _ _ (by rwa [List.length_map]),
        List.getD_eq_getElem _ _ hi, List.getElem_map]

/-- C4 witness: a one-document corpus with one chunk. -/
theorem build_index_invariant_witness :
    (build_index embZero (ingest charTok ["ab"] ["a.txt"]).1
        (ingest charTok ["ab"] ["a.txt"]).2 =
      .ok ([[(0 : Int)]], [⟨0, "ab", "a.txt"⟩])) ∧
    ([(⟨0, "ab", "a.txt"⟩ : Entry)].length = [[(0 : Int)]].length ∧
    ∀ i : Nat, ∀ h : i < [(⟨0, "ab", "a.txt"⟩ : Entry)].length,
      ([(⟨0, "ab", "a.txt"⟩ : Entry)].get ⟨i, h⟩).id = i ∧
      ([(⟨0, "ab", "a.txt"⟩ : Entry)].get ⟨i, h⟩).content =
        (ingest charTok ["ab"] ["a.txt"]).1.getD i "" ∧
      ([(⟨0, "ab", "a.txt"⟩ : Entry)].get ⟨i, h⟩).source =
        (ingest charTok ["ab"] ["a.txt"]).2.getD i "" ∧
      [[(0 : Int)]].getD i (embZero "") =
        embZero ((ingest charTok ["ab"] ["a.txt"]).1.getD i "")) :=
  ⟨rfl, build_index_invariant charTok embZero ["ab"] ["a.txt"] [[0]]
    [⟨0, "ab", "a.txt"⟩] rfl⟩

/- ### C1: inconsistent artifacts are not detected -/

/-- C1 (code bug): with a metadata file of 3 entries paired with an index
of 2 vectors, `retrieve(query, 3)` raises nothing at all: faiss returns
the two real positions plus a `-1` pad label, Python's negative indexing
turns `metadata[-1]` into the last metadata entry, and the call silently
returns three records — the third being `entryC`, which corresponds to no
index vector.  No `ArtifactInconsistency` (or any other) error exists in
the code. -/
theorem retrieve_inconsistent_silent :
    ([entryA, entryB, entryC].length = 3 ∧
      ([[(0 : Int)], [1]] : List (List Int)).length = 2) ∧
    retrieve embZero [[0], [1]] [entryA, entryB, entryC] "What is MCP?" 3 =
      .ok [entryA, entryB, entryC] :=
  ⟨⟨rfl, rfl⟩, rfl⟩

/- ### C2: k greater than the corpus size -/

/-- C2 (code bug): with a positionally consistent index and metadata of
size `M = 2` and `k = 3 > M`, `retrieve` returns three records, not two:
the `-1` pad label maps through Python's negative indexing to the last
metadata entry, which is returned a second time. -/
theorem retrieve_k_gt_M_returns_k :
    ([entryA, entryB].length = 2 ∧
      ([[(0 : Int)], [1]] : List (List Int)).length = 2) ∧
    retrieve embZero [[0], [1]] [entryA, entryB] "What is MCP?" 3 =
      .ok [entryA, entryB, entryB] ∧
    [entryA, entryB, entryB].length = 3 :=
  ⟨⟨rfl, rfl⟩, rfl, rfl⟩

/- ### C3: ranking of returned records -/

/-- C3 counterexample: with two vectors where position 1 is nearest and
`k = 3 > M = 2`, the returned sequence is `[entryB, entryA, entryB]` —
the pad label `-1` re-returns the *nearest* entry after the farthest one,
so the distances of the returned positions are `[0, 1, 0]`, not
ascending. -/
theorem retrieve_unordered_cex :
    faissSearchLabels [[(1 : Int)], [0]] (embZero "q") 3 = [1, 0, -1] ∧
    retrieve embZero [[1], [0]] [entryA, entryB] "q" 3 =
      .ok [entryB, entryA, entryB] ∧
    labelDists [[(1 : Int)], [0]] (embZero "q") [1, 0, -1] = .ok [0, 1, 0] ∧
    ¬ List.Sorted (· ≤ ·) ([0, 1, 0] : List Int) :=
  ⟨rfl, rfl, rfl, by decide⟩

/-- C3 (amended): for every query and every `k` not exceeding the number
`M` of indexed vectors, with metadata at least covering the index,
`retrieve` succeeds with exactly `k` records, and the squared distances
from the query embedding to the indexed vectors at the returned positions
are in ascending order. -/
theorem retrieve_sorted (emb : String → List K) (db : List (List K))
    (md : List Entry) (q : String) (k : Nat)
    (hk : k ≤ db.length) (hmd : db.length ≤ md.length) :
    ∃ es ds,
      retrieve emb db md q k = .ok es ∧ es.length = k ∧
      labelDists db (emb q) (faissSearchLabels db (emb q) k) = .ok ds ∧
      List.Sorted (· ≤ ·) ds := by
  have hlabels := faissSearchLabels_of_le db (emb q) k hk
  have hmemtake : ∀ p ∈ (List.insertionSort distLe (scoredVectors db (emb q))).take k,
      0 ≤ p.2 ∧ p.2.toNat < db.length ∧
        p.1 = sqDist (emb q) (db.getD p.2.toNat []) :=
    fun p hp => mem_sorted_scored db (emb q) p (List.mem_of_mem_take hp)
  have hpy : ∀ a ∈ (List.insertionSort distLe
        (scoredVectors db (emb q))).take k |>.map Prod.snd,
      pyGet md a = .ok (md.getD a.toNat (Entry.mk 0 "" "")) := by
    intro a ha
    obtain ⟨p, hp, rfl⟩ := List.mem_map.mp ha
    obtain ⟨h0, h1, _⟩ := hmemtake p hp
    have h1' : p.2.toNat < md.length := lt_of_lt_of_le h1 hmd
    rw [pyGet_ok md p.2 h0 h1']
    rw [List.get_eq_getElem, List.getD_eq_getElem _ _ h1']
  have hpy2 : ∀ a ∈ (List.insertionSort distLe
        (scoredVectors db (emb q))).take k |>.map Prod.snd,
      (pyGet db a).map (sqDist (emb q)) =
        .ok (sqDist (emb q) (db.getD a.toNat [])) := by
    intro a ha
    obtain ⟨p, hp, rfl⟩ := List.mem_map.mp ha
    obtain ⟨h0, h1, _⟩ := hmemtake p hp
    rw [pyGet_ok db p.2 h0 h1]
    rw [List.get_eq_getElem, List.getD_eq_getElem _ _ h1]
    rfl
  have hlentake :
      (((List.insertionSort distLe (scoredVectors db (emb q))).take k).map
        Prod.snd).length = k := by
    rw [List.length_map, List.length_take, length_sorted_scored]
    omega
  refine ⟨(((List.insertionSort distLe (scoredVectors db (emb q))).take k).map
      Prod.snd).map (fun a => md.getD a.toNat (Entry.mk 0 "" "")),
    (((List.insertionSort distLe (scoredVectors db (emb q))).take k).map
      Prod.snd).map (fun a => sqDist (emb q) (db.getD a.toNat [])),
    ?_, ?_, ?_, ?_⟩
  · simp only [retrieve]
    rw [hlabels]
    exact exceptMap_ok _ _ _ hpy
  · rw [List.length_map, hlentake]
  · rw [hlabels]
    exact exceptMap_ok _ _ _ hpy2
  · have hrw :
        (((List.insertionSort distLe (scoredVectors db (emb q))).take k).map
          Prod.snd).map (fun a => sqDist (emb q) (db.getD a.toNat [])) =
        ((List.insertionSort distLe (scoredVectors db (emb q))).take k).map
          Prod.fst := by
      rw [List.map_map]
      refine List.map_congr_left ?_
      intro p hp
      obtain ⟨_, _, h2⟩ := hmemtake p hp
      exact (congrArg id h2).symm
    rw [hrw]
    have h1 : List.Sorted distLe
        (List.insertionSort distLe (scoredVectors db (emb q))) :=
      List.sorted_insertionSort distLe _
    have h2 : List.Pairwise distLe
        ((List.insertionSort distLe (scoredVectors db (emb q))).take k) :=
      List.Pairwise.sublist (List.take_sublist _ _) h1
    exact List.Pairwise.map Prod.fst (fun a b hab => hab) h2

/-- C3 witness: a consistent two-vector index queried with `k = 2`. -/
theorem retrieve_sorted_witness :
    ((2 : Nat) ≤ ([[(0 : Int)], [1]] : List (List Int)).length ∧
      ([[(0 : Int)], [1]] : List (List Int)).length ≤ [entryA, entryB].length) ∧
    ∃ es ds,
      retrieve embZero [[0], [1]] [entryA, entryB] "q" 2 = .ok es ∧
      es.length = 2 ∧
      labelDists [[(0 : Int)], [1]] (embZero "q")
        (faissSearchLabels [[(0 : Int)], [1]] (embZero "q") 2) = .ok ds ∧
      List.Sorted (· ≤ ·) ds :=
  ⟨⟨by decide, by decide⟩,
    retrieve_sorted embZero [[0], [1]] [entryA, entryB] "q" 2
      (by decide) (by decide)⟩

/- ### C9: undecodable files are neither skipped nor warned about -/

/-- C9 counterexample: a regular `.txt` file whose bytes are not valid
UTF-8 (`utf8Valid = false`) is not skipped — `open(..., errors="ignore")`
silently drops the bad bytes and the mangled text is loaded — and the
warning list of `load_documents` is empty. -/
theorem load_documents_cex :
    load_documents [⟨"bad.txt", true, false, "mangled"⟩] =
      (["mangled"], ["bad.txt"], []) :=
  rfl

/-- C9 (amended): `load_documents` opens every regular `.txt` file with
`errors="ignore"`, so decoding never fails: the file's errors-ignored text
is always included, whether or not its bytes are valid UTF-8, no file is
skipped for decoding reasons, and no warning is ever reported. -/
theorem load_documents_no_skip_no_warn (files : List RawFile) (f : RawFile)
    (hf : f ∈ files) (hreg : f.isFile = true)
    (hname : strEndsWith f.name ".txt" = true) :
    f.textIgnore ∈ (load_documents files).1 ∧
    (load_documents files).2.2 = [] := by
  constructor
  · exact List.mem_map_of_mem _
      (List.mem_filter.mpr ⟨hf, by simp [hreg, hname]⟩)
  · rfl

/-- C9 witness: the undecodable `.txt` file is in the listing and the
theorem applies to it. -/
theorem load_documents_no_skip_no_warn_witness :
    ((⟨"bad.txt", true, false, "mangled"⟩ : RawFile) ∈
        [(⟨"bad.txt", true, false, "mangled"⟩ : RawFile)] ∧
      (⟨"bad.txt", true, false, "mangled"⟩ : RawFile).isFile = true ∧
      strEndsWith (⟨"bad.txt", true, false, "mangled"⟩ : RawFile).name ".txt" = true) ∧
    ("mangled" ∈
        (load_documents [⟨"bad.txt", true, false, "mangled"⟩]).1 ∧
      (load_documents [⟨"bad.txt", true, false, "mangled"⟩]).2.2 = []) :=
  ⟨⟨List.mem_cons_self _ _, rfl, rfl⟩,
    load_documents_no_skip_no_warn [⟨"bad.txt", true, false, "mangled"⟩]
      ⟨"bad.txt", true, false, "mangled"⟩ (List.mem_cons_self _ _) rfl rfl⟩

/- ### C10: an all-empty corpus crashes the build -/

/-- C10 (code bug): a document whose parsed content is empty does
contribute zero chunks (first two conjuncts: alongside a non-empty
document the build succeeds and the empty one is absent), but a build
pass whose documents yield zero chunks in total does not complete: with
no chunks the embedding matrix is empty and `embeddings.shape[1]` raises
`IndexError` (last two conjuncts). -/
theorem build_index_empty_corpus_raises :
    ingest charTok ["ab", ""] ["a.txt", "b.txt"] = (["ab"], ["a.txt"]) ∧
    build_index embZero (ingest charTok ["ab", ""] ["a.txt", "b.txt"]).1
        (ingest charTok ["ab", ""] ["a.txt", "b.txt"]).2 =
      .ok ([[0]], [⟨0, "ab", "a.txt"⟩]) ∧
    ingest charTok [""] ["a.txt"] = ([], []) ∧
    build_index embZero (ingest charTok [""] ["a.txt"]).1
        (ingest charTok [""] ["a.txt"]).2 =
      .error "IndexError: tuple index out of range" :=
  ⟨rfl, rfl, rfl, rfl⟩

end RagPipeline
